import Mathlib

/-!
Shallow embedding of the discriminant codec of
`compiler/rustc_const_eval/src/interpret/discriminant.rs`:
`write_discriminant`, `read_discriminant`, `discriminant_for_variant` and
`tag_for_variant`, together with the layout data they consume.

Machine integers are modelled as `Nat` bit patterns reduced mod `2^w` at the
width `w` where the source performs wrapping arithmetic.  Fallible
interpretation (`InterpResult`) is `Except Err`; user-visible undefined
behaviour (`throw_ub!`) and internal fatal inconsistencies (failing
`assert!`/`expect`/`span_bug!`) are kept apart in `Err`.
-/

namespace DiscriminantCodec

/-- A scalar value sitting in a tag field: either a plain integer, recorded
as its unsigned bit pattern, or a pointer-like value with no concrete
address (only possible during CTFE).  For a pointer-like value we record
what `scalar_may_be_null` would answer. -/
inductive ScalarVal where
  | int (bits : Nat)
  | ptr (mayBeNull : Bool)
deriving DecidableEq

/-- The tag encoding of a `Variants::Multiple` layout
(`rustc_target::abi::TagEncoding`).  `niche` carries `untagged_variant`,
the inclusive variant-index range `nicheVariantsStart ..= nicheVariantsEnd`
(`niche_variants`), and `niche_start`. -/
inductive TagEncoding where
  | direct
  | niche (untaggedVariant nicheVariantsStart nicheVariantsEnd nicheStart : Nat)
deriving DecidableEq

/-- The `variants` field of a layout (`rustc_target::abi::Variants`).
For `multiple`, `tagSize` is the bit width of the tag scalar's integer
layout (`tag_layout.size` in bits), `tagSigned` its signedness, and
`tagField` the field index holding the tag. -/
inductive Variants where
  | single (index : Nat)
  | multiple (tagSize : Nat) (tagSigned : Bool) (tagEncoding : TagEncoding) (tagField : Nat)
deriving DecidableEq

/-- Everything the codec queries about a type and its layout: whether the
type is an enum (`ty.is_enum()`), the number of declared variants
(`variants().len()` / `next_index()`), the declared discriminant table in
declaration order (`adt.discriminants(tcx)`, pairs of variant index and
discriminant bit pattern), the per-variant uninhabitedness predicate
(`layout.for_variant(..).abi.is_uninhabited()`), the bit width of the
discriminant type (`discriminant_ty`), and the `variants` layout. -/
structure TyInfo where
  isEnum : Bool
  variantCount : Nat
  discriminants : List (Nat × Nat)
  variantUninhabited : Nat → Bool
  discrSize : Nat
  variants : Variants

/-- User-visible undefined-behaviour conditions raised by the codec
(`throw_ub!`).  `invalidTagInt` cites the raw tag bits, `invalidTagPtr`
stands for `InvalidTag` citing a pointer-like placeholder value. -/
inductive UbKind where
  | uninhabitedEnumVariantWritten (v : Nat)
  | uninhabitedEnumVariantRead (v : Nat)
  | invalidTagInt (bits : Nat)
  | invalidTagPtr
  | invalidNichedEnumVariantWritten
deriving DecidableEq

/-- Interpretation failure: user-facing UB, or an internal fatal
inconsistency (a failing `assert!` / `expect` / `span_bug!`). -/
inductive Err where
  | ub (k : UbKind)
  | fatal
deriving DecidableEq

/-- Memory as seen by the codec: what scalar each field of the destination
currently holds. -/
abbrev Mem := Nat → ScalarVal

/-- Overwrite one field, as `write_scalar` on the projected tag field
does. -/
def writeMem (mem : Mem) (field : Nat) (v : ScalarVal) : Mem :=
  fun f => if f = field then v else mem f

/-- Wrapping addition at bit width `w`, as `wrapping_binary_op(BinOp::Add)`
computes it on unsigned tag bit patterns. -/
def wrappingAdd (w a b : Nat) : Nat := (a + b) % 2 ^ w

/-- Wrapping subtraction `a -wrap b` at bit width `w`, as
`wrapping_binary_op(BinOp::Sub)` computes it on unsigned tag bit patterns;
meaningful when `b < 2 ^ w`, which the caller guarantees. -/
def wrappingSub (w a b : Nat) : Nat := (a + (2 ^ w - b)) % 2 ^ w

/-- Read the bit pattern of width `w` as a signed two's-complement
integer. -/
def toSigned (w bits : Nat) : Int :=
  if bits < 2 ^ (w - 1) then (bits : Int) else (bits : Int) - 2 ^ w

/-- The int-to-int cast performed by `int_to_int_or_float` when casting the
tag value to the discriminant layout: sign- or zero-extend according to the
source signedness, then truncate to the destination width, returning the
unsigned bit pattern. -/
def castBits (fromW : Nat) (signed : Bool) (toW bits : Nat) : Nat :=
  if signed then (toSigned fromW bits % (2 ^ toW : Int)).toNat
  else bits % 2 ^ toW

/-- Embeds `InterpCx::discriminant_for_variant`.  A nonempty table models a
type with actual discriminants: the requested variant is looked up
(`ty.discriminant_for_variant` returning `Some`), and `Scalar::from_uint`
requires the value to fit the discriminant width.  An empty table models a
type without discriminants, where only variant 0 is legal
(`assert_eq!(variant.as_u32(), 0)`). -/
def discriminant_for_variant (ty : TyInfo) (variant : Nat) : Except Err Nat :=
  match ty.discriminants.find? (fun p => p.1 = variant) with
  | some p => if p.2 < 2 ^ ty.discrSize then .ok p.2 else .error .fatal
  | none => if variant = 0 then .ok (0 % 2 ^ ty.discrSize) else .error .fatal

/-- Embeds `InterpCx::tag_for_variant`: how to write the tag of
`variant_index`.  `none` means the variant is encoded implicitly;
`some (tag, field)` means the integer `tag` is to be stored at `field`.
Fatal cases are the source's `assert_eq!(index, variant_index)`, the
`checked_sub(..).expect` on the relative variant index, and the
`ImmTy::from_uint` requirements that `niche_start` and the relative index
fit the tag layout. -/
def tag_for_variant (ty : TyInfo) (variant_index : Nat) :
    Except Err (Option (Nat × Nat)) :=
  match ty.variants with
  | .single index =>
      if index = variant_index then .ok none else .error .fatal
  | .multiple tagSize _ .direct tagField =>
      match discriminant_for_variant ty variant_index with
      | .error e => .error e
      | .ok discrVal => .ok (some (discrVal % 2 ^ tagSize, tagField))
  | .multiple tagSize _ (.niche untagged vs _ve ns) tagField =>
      if variant_index = untagged then .ok none
      else if variant_index < vs then .error .fatal
      else if 2 ^ tagSize ≤ ns then .error .fatal
      else if 2 ^ tagSize ≤ variant_index - vs then .error .fatal
      else .ok (some (wrappingAdd tagSize (variant_index - vs) ns, tagField))

/-- The `TagEncoding::Direct` arm of `read_discriminant`: a pointer-like
tag is `InvalidTag`; integer tag bits are cast to the discriminant layout
and looked up in the declared discriminant table, the first variant whose
discriminant equals the cast bits wins; no match is `InvalidTag` citing the
bits.  Bits exceeding the tag width cannot come out of `assert_bits`, so
they are an internal inconsistency. -/
def decodeDirect (ty : TyInfo) (w : Nat) (s : Bool) (tagVal : ScalarVal) :
    Except Err Nat :=
  match tagVal with
  | .ptr _ => .error (.ub .invalidTagPtr)
  | .int bits =>
      if 2 ^ w ≤ bits then .error .fatal
      else
        match ty.discriminants.find? (fun p => p.2 = castBits w s ty.discrSize bits) with
        | some p => .ok p.1
        | none => .error (.ub (.invalidTagInt bits))

/-- The `TagEncoding::Niche` arm of `read_discriminant`.  A pointer-like
tag is accepted only if `niche_start == 0`, the niche range has exactly one
variant and the value cannot be null; it then denotes the untagged variant.
For integer bits, `relative = bits -wrap niche_start` at the tag width; a
relative value at most `variants_end - variants_start` resolves to
`variants_start + relative` (with the `checked_add` u32 overflow and the
`variant_index < variants.next_index()` assertion as fatal guards), any
other value resolves to the untagged variant. -/
def decodeNiche (ty : TyInfo) (w u vs ve ns : Nat) (tagVal : ScalarVal) :
    Except Err Nat :=
  match tagVal with
  | .ptr mayBeNull =>
      if ns = 0 ∧ vs = ve ∧ mayBeNull = false then .ok u
      else .error (.ub .invalidTagPtr)
  | .int bits =>
      if 2 ^ w ≤ bits then .error .fatal
      else if 2 ^ w ≤ ns then .error .fatal
      else
        if wrappingSub w bits ns ≤ ve - vs then
          if 2 ^ 32 ≤ vs + wrappingSub w bits ns then .error .fatal
          else if ty.variantCount ≤ vs + wrappingSub w bits ns then .error .fatal
          else .ok (vs + wrappingSub w bits ns)
        else .ok u

/-- Dispatch on the tag encoding, the `match *tag_encoding` of
`read_discriminant`. -/
def decodeTag (ty : TyInfo) (w : Nat) (s : Bool) (enc : TagEncoding)
    (tagVal : ScalarVal) : Except Err Nat :=
  match enc with
  | .direct => decodeDirect ty w s tagVal
  | .niche u vs ve ns => decodeNiche ty w u vs ve ns tagVal

/-- Embeds `InterpCx::read_discriminant`.  `Variants::Single` returns the
index directly, after the extra enum-only checks (declared-empty enums and
uninhabited sole variants are UB).  `Variants::Multiple` reads the tag
field, decodes it per the tag encoding, and finally rejects any resolved
variant that is uninhabited. -/
def read_discriminant (ty : TyInfo) (mem : Mem) : Except Err Nat :=
  match ty.variants with
  | .single index =>
      if ty.isEnum then
        if ty.variantCount = 0 then .error (.ub (.uninhabitedEnumVariantRead index))
        else if ty.variantUninhabited index then
          .error (.ub (.uninhabitedEnumVariantRead index))
        else .ok index
      else .ok index
  | .multiple w s enc tagField =>
      match decodeTag ty w s enc (mem tagField) with
      | .error e => .error e
      | .ok index =>
          if ty.variantUninhabited index then
            .error (.ub (.uninhabitedEnumVariantRead index))
          else .ok index

/-- Embeds `InterpCx::write_discriminant`.  Writing an uninhabited variant
is UB before anything else happens; then the tag computed by
`tag_for_variant` is stored at its field, or, for an implicitly encoded
variant, the destination is left untouched and re-decoded, a mismatch being
`InvalidNichedEnumVariantWritten`. -/
def write_discriminant (ty : TyInfo) (variant_index : Nat) (mem : Mem) :
    Except Err Mem :=
  if ty.variantUninhabited variant_index then
    .error (.ub (.uninhabitedEnumVariantWritten variant_index))
  else
    match tag_for_variant ty variant_index with
    | .error e => .error e
    | .ok (some (tag, tagField)) => .ok (writeMem mem tagField (.int tag))
    | .ok none =>
        match read_discriminant ty mem with
        | .error e => .error e
        | .ok actual =>
            if actual = variant_index then .ok mem
            else .error (.ub .invalidNichedEnumVariantWritten)

/-! Concrete layouts used as witnesses: a one-byte `Direct` enum with
declared discriminants 10, 20 and 200, a one-byte `Niche` enum whose
niche range 0..=2 starts at tag value 254 with untagged variant 3, a
single-variant niche over a pointer-sized field, and degenerate `Single`
layouts. -/

/-- Three-variant enum, `Direct` one-byte tag, discriminants 10, 20, 200. -/
def tyDirect : TyInfo :=
  { isEnum := true
    variantCount := 3
    discriminants := [(0, 10), (1, 20), (2, 200)]
    variantUninhabited := fun _ => false
    discrSize := 32
    variants := .multiple 8 false .direct 0 }

/-- Four-variant enum, `Niche` one-byte tag: variants 0..=2 niched with
`niche_start = 254` (one below the byte's maximum value), variant 3
untagged. -/
def tyNiche : TyInfo :=
  { isEnum := true
    variantCount := 4
    discriminants := [(0, 0), (1, 1), (2, 2), (3, 3)]
    variantUninhabited := fun _ => false
    discrSize := 32
    variants := .multiple 8 false (.niche 3 0 2 254) 0 }

/-- Two-variant enum whose niche is the null value of a pointer field:
variant 0 niched at `niche_start = 0`, variant 1 untagged. -/
def tyNichePtr : TyInfo :=
  { isEnum := true
    variantCount := 2
    discriminants := [(0, 0), (1, 1)]
    variantUninhabited := fun _ => false
    discrSize := 32
    variants := .multiple 64 false (.niche 1 0 0 0) 0 }

/-- A non-enum `Single`-layout type whose sole variant is uninhabited. -/
def tySingleUninhab : TyInfo :=
  { isEnum := false
    variantCount := 1
    discriminants := []
    variantUninhabited := fun _ => true
    discrSize := 8
    variants := .single 0 }

/-- A declared-empty enum; layout degenerately uses `Single` with index
0. -/
def tyEmptyEnum : TyInfo :=
  { isEnum := true
    variantCount := 0
    discriminants := []
    variantUninhabited := fun _ => true
    discrSize := 8
    variants := .single 0 }

/-- Variant of `tyDirect` in which every variant is uninhabited. -/
def tyDirectUninhab : TyInfo :=
  { tyDirect with variantUninhabited := fun _ => true }

/-- Memory whose every field holds the integer 0. -/
def memZero : Mem := fun _ => .int 0

/-! Helper lemmas about the decoder's structure. -/

theorem read_discriminant_multiple (ty : TyInfo) (mem : Mem) (w : Nat) (s : Bool)
    (enc : TagEncoding) (tf : Nat) (hv : ty.variants = .multiple w s enc tf) :
    read_discriminant ty mem =
      match decodeTag ty w s enc (mem tf) with
      | .error e => .error e
      | .ok index =>
          if ty.variantUninhabited index then
            .error (.ub (.uninhabitedEnumVariantRead index))
          else .ok index := by
  unfold read_discriminant
  rw [hv]

theorem read_discriminant_decode_ok (ty : TyInfo) (mem : Mem) (w : Nat) (s : Bool)
    (enc : TagEncoding) (tf i : Nat) (hv : ty.variants = .multiple w s enc tf)
    (hd : decodeTag ty w s enc (mem tf) = .ok i)
    (hi : ty.variantUninhabited i = false) :
    read_discriminant ty mem = .ok i := by
  rw [read_discriminant_multiple ty mem w s enc tf hv, hd]
  simp [hi]

theorem read_discriminant_decode_ok_uninhab (ty : TyInfo) (mem : Mem) (w : Nat)
    (s : Bool) (enc : TagEncoding) (tf i : Nat)
    (hv : ty.variants = .multiple w s enc tf)
    (hd : decodeTag ty w s enc (mem tf) = .ok i)
    (hi : ty.variantUninhabited i = true) :
    read_discriminant ty mem = .error (.ub (.uninhabitedEnumVariantRead i)) := by
  rw [read_discriminant_multiple ty mem w s enc tf hv, hd]
  simp [hi]

theorem read_discriminant_decode_err (ty : TyInfo) (mem : Mem) (w : Nat) (s : Bool)
    (enc : TagEncoding) (tf : Nat) (e : Err)
    (hv : ty.variants = .multiple w s enc tf)
    (hd : decodeTag ty w s enc (mem tf) = .error e) :
    read_discriminant ty mem = .error e := by
  rw [read_discriminant_multiple ty mem w s enc tf hv, hd]

/-- Wrapping subtraction undoes wrapping addition at the same width. -/
theorem wrappingSub_wrappingAdd (w rel ns : Nat) (hns : ns < 2 ^ w)
    (hrel : rel < 2 ^ w) :
    wrappingSub w (wrappingAdd w rel ns) ns = rel := by
  unfold wrappingAdd wrappingSub
  rw [Nat.mod_add_mod]
  have h1 : rel + ns + (2 ^ w - ns) = rel + 2 ^ w := by omega
  rw [h1, Nat.add_mod_right, Nat.mod_eq_of_lt hrel]

/-- C8: writing an uninhabited variant fails with
`UninhabitedEnumVariantWritten` for every type and every memory state: the
check precedes the encoder (the statement holds even for types on which
`tag_for_variant` would be fatal) and no memory is produced. -/
theorem c8_uninhabited_write_rejected (ty : TyInfo) (V : Nat) (mem : Mem)
    (h : ty.variantUninhabited V = true) :
    write_discriminant ty V mem = .error (.ub (.uninhabitedEnumVariantWritten V)) := by
  unfold write_discriminant
  simp [h]

theorem c8_uninhabited_write_rejected_witness :
    tyDirectUninhab.variantUninhabited 1 = true ∧
    write_discriminant tyDirectUninhab 1 memZero =
      .error (.ub (.uninhabitedEnumVariantWritten 1)) :=
  ⟨rfl, c8_uninhabited_write_rejected tyDirectUninhab 1 memZero rfl⟩

/-- C4: with `niche_start = 254` (one below the one-byte maximum 255) and a
niche range of three variants (0..=2), encoding the variant at relative
offset 2 wraps around to tag bit pattern 0, and decoding bit pattern 0
resolves back to that same variant 2, not to the untagged variant 3. -/
theorem c4_niche_boundary_wraparound :
    tag_for_variant tyNiche 2 = .ok (some (0, 0)) ∧
    read_discriminant tyNiche memZero = .ok 2 ∧
    read_discriminant tyNiche memZero ≠ .ok 3 :=
  ⟨rfl, rfl, fun h => by
    rw [show read_discriminant tyNiche memZero = .ok 2 from rfl] at h
    exact absurd (Except.ok.inj h) (by decide)⟩

/-- C2, counterexample: a non-enum `Single`-layout type whose sole variant
is uninhabited decodes successfully to that uninhabited variant, because
the `Single` inhabitedness checks are guarded by `ty.is_enum()`. -/
theorem c2_counterexample :
    read_discriminant tySingleUninhab memZero = .ok 0 ∧
    tySingleUninhab.variantUninhabited 0 = true :=
  ⟨rfl, rfl⟩

/-- C2, amended: for enums and for every `Multiple`-layout type,
`read_discriminant` never returns an uninhabited variant; and for a
`Single`-layout enum that is declared empty or whose sole variant is
uninhabited, it fails with `UninhabitedEnumVariantRead`.  (The `Single`
checks apply only to enums; a non-enum `Single` type returns its index
unchecked.) -/
theorem c2_no_uninhabited_result (ty : TyInfo) (mem : Mem) :
    (∀ i, (ty.isEnum = true ∨ ∀ idx, ty.variants ≠ .single idx) →
        read_discriminant ty mem = .ok i → ty.variantUninhabited i = false) ∧
    (∀ idx, ty.variants = .single idx → ty.isEnum = true →
        (ty.variantCount = 0 ∨ ty.variantUninhabited idx = true) →
        read_discriminant ty mem = .error (.ub (.uninhabitedEnumVariantRead idx))) := by
  constructor
  · intro i hside hr
    cases hv : ty.variants with
    | single index =>
        rcases hside with he | hns
        · simp only [read_discriminant, hv, he, if_true] at hr
          by_cases h0 : ty.variantCount = 0
          · rw [if_pos h0] at hr
            cases hr
          · rw [if_neg h0] at hr
            by_cases hu : ty.variantUninhabited index = true
            · rw [if_pos hu] at hr
              cases hr
            · rw [if_neg hu] at hr
              cases hr
              simpa using hu
        · exact absurd hv (hns index)
    | multiple w s enc tf =>
        simp only [read_discriminant, hv] at hr
        cases hd : decodeTag ty w s enc (mem tf) with
        | error e =>
            simp only [hd] at hr
            cases hr
        | ok index =>
            simp only [hd] at hr
            by_cases hu : ty.variantUninhabited index = true
            · rw [if_pos hu] at hr
              cases hr
            · rw [if_neg hu] at hr
              cases hr
              simpa using hu
  · intro idx hv he hbad
    simp only [read_discriminant, hv, he, if_true]
    rcases hbad with h0 | hu
    · rw [if_pos h0]
    · by_cases h0 : ty.variantCount = 0
      · rw [if_pos h0]
      · rw [if_neg h0, if_pos hu]

theorem c2_no_uninhabited_result_witness :
    tyNiche.variantUninhabited 2 = false ∧
    read_discriminant tyEmptyEnum memZero =
      .error (.ub (.uninhabitedEnumVariantRead 0)) :=
  ⟨(c2_no_uninhabited_result tyNiche memZero).1 2 (Or.inl rfl) rfl,
   (c2_no_uninhabited_result tyEmptyEnum memZero).2 0 rfl rfl (Or.inl rfl)⟩

/-- C9: when `write_discriminant` succeeds it either leaves memory exactly
as it was (implicit encoding) or produces memory that holds the encoder's
integer tag at the tag field and agrees with the old memory on every other
field — the tag write is total and nothing else is touched. -/
theorem c9_write_frame (ty : TyInfo) (V : Nat) (mem mem' : Mem)
    (hw : write_discriminant ty V mem = .ok mem') :
    mem' = mem ∨
      ∃ tag tf, tag_for_variant ty V = .ok (some (tag, tf)) ∧
        mem' tf = .int tag ∧ ∀ f, f ≠ tf → mem' f = mem f := by
  unfold write_discriminant at hw
  split at hw
  · cases hw
  · split at hw
    · cases hw
    · next tag tf heq =>
        cases hw
        refine Or.inr ⟨tag, tf, heq, by simp [writeMem], fun f hf => by simp [writeMem, hf]⟩
    · split at hw
      · cases hw
      · split at hw
        · cases hw
          exact Or.inl rfl
        · cases hw

theorem c9_write_frame_witness :
    writeMem memZero 0 (.int 200) = memZero ∨
      ∃ tag tf, tag_for_variant tyDirect 2 = .ok (some (tag, tf)) ∧
        writeMem memZero 0 (.int 200) tf = .int tag ∧
        ∀ f, f ≠ tf → writeMem memZero 0 (.int 200) f = memZero f :=
  c9_write_frame tyDirect 2 memZero (writeMem memZero 0 (.int 200)) rfl

/-- C10: the encoder consults only the layout, never inhabitedness —
`tag_for_variant` is invariant under changing the per-variant
inhabitedness predicate — and on an uninhabited declared variant it
succeeds and returns the layout-dictated tag, while `write_discriminant`
alone rejects that same variant. -/
theorem c10_encoder_ignores_inhabitedness :
    (∀ (ty : TyInfo) (f g : Nat → Bool) (V : Nat),
        tag_for_variant { ty with variantUninhabited := f } V =
          tag_for_variant { ty with variantUninhabited := g } V) ∧
    tag_for_variant tyDirectUninhab 2 = .ok (some (200, 0)) ∧
    tyDirectUninhab.variantUninhabited 2 = true ∧
    write_discriminant tyDirectUninhab 2 memZero =
      .error (.ub (.uninhabitedEnumVariantWritten 2)) :=
  ⟨fun _ _ _ _ => rfl, rfl, rfl, rfl⟩

/-- Memory whose every field holds the integer 100, a tag outside the
niche range of `tyNiche`. -/
def mem100 : Mem := fun _ => .int 100

/-- Memory whose every field holds a pointer-like value that is provably
not null. -/
def memPtrNotNull : Mem := fun _ => .ptr false

/-- C3: niche decoding of an integer tag computes
`relative = tag_bits -wrap niche_start` at the tag's width; a relative
value within `[0, niche_range_length]` resolves to
`niche_range_start + relative`, where overflow of that ordinal addition
(past u32 or past the declared variant count) is an internal fatal error
rather than user-facing UB; every other relative value resolves to the
untagged variant. -/
theorem c3_niche_integer_decode (ty : TyInfo) (mem : Mem) (w : Nat) (s : Bool)
    (u vs ve ns tf bits : Nat)
    (hv : ty.variants = .multiple w s (.niche u vs ve ns) tf)
    (hm : mem tf = .int bits) (hb : bits < 2 ^ w) (hns : ns < 2 ^ w) :
    (wrappingSub w bits ns ≤ ve - vs →
        (vs + wrappingSub w bits ns < 2 ^ 32 →
            vs + wrappingSub w bits ns < ty.variantCount →
            ty.variantUninhabited (vs + wrappingSub w bits ns) = false →
            read_discriminant ty mem = .ok (vs + wrappingSub w bits ns)) ∧
        (2 ^ 32 ≤ vs + wrappingSub w bits ns →
            read_discriminant ty mem = .error .fatal)) ∧
    (ve - vs < wrappingSub w bits ns →
        ty.variantUninhabited u = false →
        read_discriminant ty mem = .ok u) := by
  have hbase : decodeTag ty w s (.niche u vs ve ns) (mem tf) =
      decodeNiche ty w u vs ve ns (.int bits) := by
    simp only [decodeTag, hm]
  constructor
  · intro hinr
    constructor
    · intro h32 hcnt hinh
      have hd : decodeNiche ty w u vs ve ns (.int bits) =
          .ok (vs + wrappingSub w bits ns) := by
        simp only [decodeNiche]
        rw [if_neg (by omega), if_neg (by omega), if_pos hinr,
          if_neg (by omega), if_neg (by omega)]
      exact read_discriminant_decode_ok ty mem w s _ tf _ hv (hbase.trans hd) hinh
    · intro h32
      have hd : decodeNiche ty w u vs ve ns (.int bits) = .error .fatal := by
        simp only [decodeNiche]
        rw [if_neg (by omega), if_neg (by omega), if_pos hinr, if_pos h32]
      exact read_discriminant_decode_err ty mem w s _ tf _ hv (hbase.trans hd)
  · intro hout hinh
    have hd : decodeNiche ty w u vs ve ns (.int bits) = .ok u := by
      simp only [decodeNiche]
      rw [if_neg (by omega), if_neg (by omega), if_neg (by omega)]
    exact read_discriminant_decode_ok ty mem w s _ tf u hv (hbase.trans hd) hinh

theorem c3_niche_integer_decode_witness :
    read_discriminant tyNiche memZero = .ok (0 + wrappingSub 8 0 254) :=
  ((c3_niche_integer_decode tyNiche memZero 8 false 3 0 2 254 0 0 rfl rfl
      (by decide) (by decide)).1 (by decide)).1 (by decide) (by decide) rfl

/-- C5: a pointer-like niche tag is accepted exactly when `niche_start` is
0, the niche range has exactly one variant and the value is provably not
null, in which case it resolves to the untagged variant (subject to the
final inhabitedness check); in every other pointer-like case decoding
fails with `InvalidTag` citing the pointer-like value. -/
theorem c5_pointer_like_niche_tag (ty : TyInfo) (mem : Mem) (w : Nat) (s : Bool)
    (u vs ve ns tf : Nat) (mayNull : Bool)
    (hv : ty.variants = .multiple w s (.niche u vs ve ns) tf)
    (hm : mem tf = .ptr mayNull) :
    (ns = 0 ∧ vs = ve ∧ mayNull = false →
        (ty.variantUninhabited u = false → read_discriminant ty mem = .ok u) ∧
        (ty.variantUninhabited u = true →
            read_discriminant ty mem = .error (.ub (.uninhabitedEnumVariantRead u)))) ∧
    (¬(ns = 0 ∧ vs = ve ∧ mayNull = false) →
        read_discriminant ty mem = .error (.ub .invalidTagPtr)) := by
  have hbase : decodeTag ty w s (.niche u vs ve ns) (mem tf) =
      decodeNiche ty w u vs ve ns (.ptr mayNull) := by
    simp only [decodeTag, hm]
  constructor
  · intro hacc
    have hd : decodeNiche ty w u vs ve ns (.ptr mayNull) = .ok u := by
      simp only [decodeNiche]
      rw [if_pos hacc]
    exact ⟨fun hinh =>
        read_discriminant_decode_ok ty mem w s _ tf u hv (hbase.trans hd) hinh,
      fun hinh =>
        read_discriminant_decode_ok_uninhab ty mem w s _ tf u hv (hbase.trans hd) hinh⟩
  · intro hrej
    have hd : decodeNiche ty w u vs ve ns (.ptr mayNull) =
        .error (.ub .invalidTagPtr) := by
      simp only [decodeNiche]
      rw [if_neg hrej]
    exact read_discriminant_decode_err ty mem w s _ tf _ hv (hbase.trans hd)

theorem c5_pointer_like_niche_tag_witness :
    read_discriminant tyNichePtr memPtrNotNull = .ok 1 ∧
    read_discriminant tyNiche memPtrNotNull = .error (.ub .invalidTagPtr) :=
  ⟨((c5_pointer_like_niche_tag tyNichePtr memPtrNotNull 64 false 1 0 0 0 0 false
        rfl rfl).1 ⟨rfl, rfl, rfl⟩).1 rfl,
   (c5_pointer_like_niche_tag tyNiche memPtrNotNull 8 false 3 0 2 254 0 false
        rfl rfl).2 (by simp)⟩

/-- C7: when the encoder reports an implicit representation
(`tag_for_variant` returns `None`), `write_discriminant` leaves the
destination untouched and re-decodes it: agreement with the requested
variant succeeds returning the unchanged memory, a differing decoded
variant fails with `InvalidNichedEnumVariantWritten`, and a decoding error
propagates. -/
theorem c7_implicit_write_checks (ty : TyInfo) (V : Nat) (mem : Mem)
    (hinh : ty.variantUninhabited V = false)
    (htag : tag_for_variant ty V = .ok none) :
    (read_discriminant ty mem = .ok V → write_discriminant ty V mem = .ok mem) ∧
    (∀ a, read_discriminant ty mem = .ok a → a ≠ V →
        write_discriminant ty V mem = .error (.ub .invalidNichedEnumVariantWritten)) ∧
    (∀ e, read_discriminant ty mem = .error e →
        write_discriminant ty V mem = .error e) := by
  refine ⟨?_, ?_, ?_⟩
  · intro hr
    simp [write_discriminant, hinh, htag, hr]
  · intro a hr ha
    simp [write_discriminant, hinh, htag, hr, ha]
  · intro e hr
    simp [write_discriminant, hinh, htag, hr]

theorem c7_implicit_write_checks_witness :
    write_discriminant tyNiche 3 mem100 = .ok mem100 ∧
    write_discriminant tyNiche 3 memZero =
      .error (.ub .invalidNichedEnumVariantWritten) :=
  ⟨(c7_implicit_write_checks tyNiche 3 mem100 rfl rfl).1 rfl,
   (c7_implicit_write_checks tyNiche 3 memZero rfl rfl).2.1 2 rfl (by decide)⟩

theorem writeMem_self (mem : Mem) (f : Nat) (v : ScalarVal) :
    writeMem mem f v f = v := by
  simp [writeMem]

theorem writeMem_other (mem : Mem) (f g : Nat) (v : ScalarVal) (h : g ≠ f) :
    writeMem mem f v g = mem g := by
  simp [writeMem, h]

/-- Memory whose every field holds the integer 200. -/
def mem200 : Mem := fun _ => .int 200

/-- Memory whose every field holds the integer 7, matching no declared
discriminant of `tyDirect`. -/
def mem7 : Mem := fun _ => .int 7

/-- C6: under `Direct` encoding the encoder resolves the declared
discriminant and truncates it to the tag width by wraparound; the decoder
casts the read tag bits to the discriminant width and returns the declared
variant whose discriminant equals the cast bits, failing with `InvalidTag`
citing the bits when no variant matches — so decode inverts encode exactly
on discriminants that survive the truncate-cast round trip. -/
theorem c6_direct_encode_decode (ty : TyInfo) (mem : Mem) (w : Nat) (s : Bool)
    (tf V d b i dv : Nat)
    (hv : ty.variants = .multiple w s .direct tf) :
    (ty.discriminants.find? (fun p => p.1 = V) = some (V, d) →
        d < 2 ^ ty.discrSize →
        tag_for_variant ty V = .ok (some (d % 2 ^ w, tf))) ∧
    (mem tf = .int b → b < 2 ^ w →
        ty.discriminants.find? (fun p => p.2 = castBits w s ty.discrSize b) =
          some (i, dv) →
        ty.variantUninhabited i = false →
        read_discriminant ty mem = .ok i) ∧
    (mem tf = .int b → b < 2 ^ w →
        ty.discriminants.find? (fun p => p.2 = castBits w s ty.discrSize b) = none →
        read_discriminant ty mem = .error (.ub (.invalidTagInt b))) := by
  refine ⟨?_, ?_, ?_⟩
  · intro hfind hfit
    have hdv : discriminant_for_variant ty V = .ok d := by
      simp only [discriminant_for_variant, hfind]
      rw [if_pos hfit]
    simp only [tag_for_variant, hv, hdv]
  · intro hm hb hfind hinh
    have hd : decodeTag ty w s .direct (mem tf) = .ok i := by
      simp only [decodeTag, hm, decodeDirect]
      rw [if_neg (not_le.mpr hb)]
      simp only [hfind]
    exact read_discriminant_decode_ok ty mem w s .direct tf i hv hd hinh
  · intro hm hb hfind
    have hd : decodeTag ty w s .direct (mem tf) =
        .error (.ub (.invalidTagInt b)) := by
      simp only [decodeTag, hm, decodeDirect]
      rw [if_neg (not_le.mpr hb)]
      simp only [hfind]
    exact read_discriminant_decode_err ty mem w s .direct tf _ hv hd

theorem c6_direct_encode_decode_witness :
    tag_for_variant tyDirect 2 = .ok (some (200 % 2 ^ 8, 0)) ∧
    read_discriminant tyDirect mem200 = .ok 2 ∧
    read_discriminant tyDirect mem7 = .error (.ub (.invalidTagInt 7)) :=
  ⟨(c6_direct_encode_decode tyDirect mem200 8 false 0 2 200 200 2 200 rfl).1
      rfl (by decide),
   (c6_direct_encode_decode tyDirect mem200 8 false 0 2 200 200 2 200 rfl).2.1
      rfl (by decide) rfl rfl,
   (c6_direct_encode_decode tyDirect mem7 8 false 0 0 0 7 0 0 rfl).2.2
      rfl (by decide) rfl⟩

/-- Facts the layout oracle guarantees about a declared variant `V`, used
by the round-trip claim: under `Direct` encoding the declared discriminant
survives the truncate-then-cast round trip and is the discriminant of `V`
alone (the layout picks a tag wide enough and discriminants are distinct);
under `Niche` encoding every tagged variant lies in the niche range, the
range ends below the declared variant count, and variant ordinals fit in
u32. -/
def EncodingFaithful (ty : TyInfo) (V : Nat) : Prop :=
  match ty.variants with
  | .single _ => True
  | .multiple w s .direct _ =>
      ∀ d, discriminant_for_variant ty V = .ok d →
        castBits w s ty.discrSize (d % 2 ^ w) = d ∧
        ty.discriminants.find? (fun p => p.2 = d) = some (V, d)
  | .multiple _ _ (.niche u vs ve _) _ =>
      (V ≠ u → vs ≤ V ∧ V ≤ ve) ∧ ve < ty.variantCount ∧ ty.variantCount ≤ 2 ^ 32

/-- C1: encode followed by decode is the identity on inhabited declared
variants — whenever `write_discriminant` of an inhabited variant `V`
succeeds on a location, `read_discriminant` of that location returns `V`,
for every layout kind. -/
theorem c1_write_then_read_roundtrip (ty : TyInfo) (V : Nat) (mem mem' : Mem)
    (hinh : ty.variantUninhabited V = false)
    (henc : EncodingFaithful ty V)
    (hw : write_discriminant ty V mem = .ok mem') :
    read_discriminant ty mem' = .ok V := by
  simp only [write_discriminant, hinh, Bool.false_eq_true, if_false] at hw
  cases htag : tag_for_variant ty V with
  | error e =>
      simp only [htag] at hw
      cases hw
  | ok o =>
      cases o with
      | none =>
          simp only [htag] at hw
          cases hr : read_discriminant ty mem with
          | error e =>
              simp only [hr] at hw
              cases hw
          | ok a =>
              simp only [hr] at hw
              by_cases ha : a = V
              · rw [if_pos ha] at hw
                cases hw
                rw [hr, ha]
              · rw [if_neg ha] at hw
                cases hw
      | some pair =>
          obtain ⟨tg, tf⟩ := pair
          simp only [htag] at hw
          cases hw
          cases hv : ty.variants with
          | single index =>
              simp only [tag_for_variant, hv] at htag
              by_cases h : index = V
              · rw [if_pos h] at htag
                cases htag
              · rw [if_neg h] at htag
                cases htag
          | multiple w s enc tf =>
              cases enc with
              | direct =>
                  simp only [tag_for_variant, hv] at htag
                  cases hdv : discriminant_for_variant ty V with
                  | error e =>
                      simp only [hdv] at htag
                      cases htag
                  | ok d =>
                      simp only [hdv] at htag
                      cases htag
                      simp only [EncodingFaithful, hv] at henc
                      obtain ⟨hcast, hfind⟩ := henc d hdv
                      apply read_discriminant_decode_ok ty _ w s .direct tf V hv ?_ hinh
                      rw [writeMem_self]
                      simp only [decodeTag, decodeDirect]
                      rw [if_neg (not_le.mpr (Nat.mod_lt d (Nat.two_pow_pos w))),
                        hcast]
                      simp only [hfind]
              | niche u vs ve ns =>
                  simp only [tag_for_variant, hv] at htag
                  by_cases hu : V = u
                  · rw [if_pos hu] at htag
                    cases htag
                  · rw [if_neg hu] at htag
                    by_cases hlt : V < vs
                    · rw [if_pos hlt] at htag
                      cases htag
                    · rw [if_neg hlt] at htag
                      by_cases hns : 2 ^ w ≤ ns
                      · rw [if_pos hns] at htag
                        cases htag
                      · rw [if_neg hns] at htag
                        by_cases hrel : 2 ^ w ≤ V - vs
                        · rw [if_pos hrel] at htag
                          cases htag
                        · rw [if_neg hrel] at htag
                          cases htag
                          simp only [EncodingFaithful, hv] at henc
                          obtain ⟨hcov, hve, h32⟩ := henc
                          obtain ⟨hvsle, hvle⟩ := hcov hu
                          apply read_discriminant_decode_ok ty _ w s _ tf V hv ?_ hinh
                          rw [writeMem_self]
                          simp only [decodeTag, decodeNiche]
                          have htlt : wrappingAdd w (V - vs) ns < 2 ^ w :=
                            Nat.mod_lt _ (Nat.two_pow_pos w)
                          rw [if_neg (not_le.mpr htlt), if_neg hns,
                            wrappingSub_wrappingAdd w (V - vs) ns
                              (not_le.mp hns) (not_le.mp hrel),
                            if_pos (by omega), if_neg (by omega), if_neg (by omega)]
                          congr 1
                          omega

theorem c1_write_then_read_roundtrip_witness :
    read_discriminant tyNiche (writeMem memZero 0 (.int 0)) = .ok 2 :=
  c1_write_then_read_roundtrip tyNiche 2 memZero (writeMem memZero 0 (.int 0))
    rfl
    (by
      simp only [EncodingFaithful, tyNiche]
      exact ⟨fun _ => by omega, by omega, by omega⟩)
    rfl

end DiscriminantCodec
